import Mathlib

/-!
Shallow embedding of src/pratt.cpp (a Pratt parser and evaluator for integer
arithmetic expressions) together with proofs about the claims of the
specification.  The byte stream is a `List Nat` of byte values, machine
integers `i64` are modelled as unbounded `Int` (the places where 64-bit
overflow matters are made explicit in the theorems), and every C++ loop is
embedded as a fuel-indexed structural recursion whose top-level wrapper
supplies enough fuel for the loop to run to its natural exit, so that every
definition is executable and kernel-reducible.
-/

deriving instance DecidableEq for Except

/-! ## Byte classification (src/pratt.cpp, is_space / is_digit) -/

/-- Embeds `is_space`: space, newline, carriage return, tab. -/
def is_space (c : Nat) : Bool := c == 32 || c == 10 || c == 13 || c == 9

/-- Embeds `is_digit`: ASCII digit. -/
def is_digit (c : Nat) : Bool := 48 ≤ c && c ≤ 57

/-- One of the six configured operator symbol bytes: + - * / ^ !. -/
def isOpByte (c : Nat) : Bool :=
  c == 43 || c == 45 || c == 42 || c == 47 || c == 94 || c == 33

/-- A parenthesis byte. -/
def isParenByte (c : Nat) : Bool := c == 40 || c == 41

/-- A byte on which `Tokenizer::next` can start a token (after skipping
whitespace): digit, operator symbol, or parenthesis.  Note that underscore
is not here: underscores are consumed only inside `read_number`. -/
def isStartByte (c : Nat) : Bool := is_digit c || isOpByte c || isParenByte c

/-- A byte that continues a number run in `read_number`: digit or underscore. -/
def isNumByte (c : Nat) : Bool := is_digit c || c == 95

/-! ## Integer power (src/pratt.cpp, powu / powi) -/

/-- Loop of `powu`: `while (2*p_cur < p) { res = res*res; p_cur *= 2; }`,
returning the final `(res, p_cur)`.  The fuel argument only bounds the
number of iterations; `powu` supplies enough for the loop to reach its
natural exit condition. -/
def powuLoopF : Nat → Int → Nat → Int → Nat → Int × Nat
  | 0, _, _, res, pcur => (res, pcur)
  | fuel + 1, x, p, res, pcur =>
    if 2 * pcur < p then powuLoopF fuel x p (res * res) (2 * pcur) else (res, pcur)

/-- Embeds `powu` (power by repeated squaring with special cases for
exponents 0..4), with fuel bounding the depth of the tail recursion on the
remainder exponent. -/
def powuF : Nat → Int → Nat → Int
  | 0, _, _ => 1
  | fuel + 1, x, p =>
    if p = 0 then 1
    else if p = 1 then x
    else if p = 2 then x * x
    else if p = 3 then x * x * x
    else if p = 4 then x * x * x * x
    else
      let r := powuLoopF p x p x 1
      r.1 * powuF fuel x (p - r.2)

/-- Embeds `powu x p`.  Fuel `p + 1` exceeds the recursion depth (each
recursive call strictly decreases the exponent). -/
def powu (x : Int) (p : Nat) : Int := powuF (p + 1) x p

/-- Evaluation errors.  Each constructor corresponds to one distinct failure
of the C++ evaluator: the first three are `std::runtime_error` throw sites,
`divTrap` models the hardware trap (undefined behavior) of `left / right`
with a zero divisor, which the code does not check, and the last three are
the internal-consistency throw sites. -/
inductive EvalErr where
  | negativePower
  | factorialOverflow
  | negativeFactorial
  | divTrap
  | invalidUnaryOperator
  | invalidInfixOperator
  | evalNone
deriving DecidableEq

/-- Embeds `powi`: negative exponents throw, otherwise `powu(x, (usize)p)`. -/
def powi (x p : Int) : Except EvalErr Int :=
  if p < 0 then .error .negativePower else .ok (powu x p.toNat)

/-! ## Factorial (src/pratt.cpp, factorial_unchecked / factorial) -/

/-- Embeds `factorial_unchecked`.  The C++ function recurses on an `i64`; it
is only ever called by `factorial` on arguments in `[0, 21]`, so the
embedding takes the nonnegative argument as a `Nat`. -/
def factorial_unchecked : Nat → Int
  | 0 => 1
  | 1 => 1
  | n + 2 => ((n : Int) + 2) * factorial_unchecked (n + 1)

/-- Embeds `factorial`: the guard order is exactly the source's, first
`x > 21` (overflow), then `x < 0` (negative). -/
def factorial (x : Int) : Except EvalErr Int :=
  if x > 21 then .error .factorialOverflow
  else if x < 0 then .error .negativeFactorial
  else .ok (factorial_unchecked x.toNat)

/-! ## Operator table (src/pratt.cpp, Op and OP_LIST) -/

/-- Embeds `Op::Kind`, the closed operator set of OP_LIST. -/
inductive OpKind where
  | Add
  | Sub
  | Mul
  | Div
  | Exp
  | Fact
deriving DecidableEq

/-- Embeds `Op::infix_binding_power` per the OP_LIST table. -/
def infix_binding_power : OpKind → Option (Nat × Nat)
  | .Add => some (1, 2)
  | .Sub => some (1, 2)
  | .Mul => some (3, 4)
  | .Div => some (3, 4)
  | .Exp => some (9, 10)
  | .Fact => none

/-- Embeds `Op::prefix_binding_power` per the OP_LIST table
(`PREFIX(5)` expands to the pair `(0, 5)`). -/
def prefix_binding_power : OpKind → Option (Nat × Nat)
  | .Add => some (0, 5)
  | .Sub => some (0, 5)
  | _ => none

/-- Embeds `Op::postfix_binding_power` per the OP_LIST table
(`POSTFIX(7)` expands to the pair `(7, 0)`). -/
def postfix_binding_power : OpKind → Option (Nat × Nat)
  | .Fact => some (7, 0)
  | _ => none

/-- The operator's one-byte display symbol, as in OP_LIST. -/
def symbolByte : OpKind → Nat
  | .Add => 43
  | .Sub => 45
  | .Mul => 42
  | .Div => 47
  | .Exp => 94
  | .Fact => 33

/-- Embeds the unary `Op::eval(i64 x)`. -/
def opEvalUnary (k : OpKind) (x : Int) : Except EvalErr Int :=
  match k with
  | .Add => .ok x
  | .Sub => .ok (-x)
  | .Fact => factorial x
  | _ => .error .invalidUnaryOperator

/-- Embeds the binary `Op::eval(i64 left, i64 right)`.  `Div` is the C++
expression `left / right` (truncating division); the source performs no
zero-divisor check, so a zero divisor is the hardware trap, modelled here as
the distinguished `divTrap`. -/
def opEvalBinary (k : OpKind) (l r : Int) : Except EvalErr Int :=
  match k with
  | .Add => .ok (l + r)
  | .Sub => .ok (l - r)
  | .Mul => .ok (l * r)
  | .Div => if r = 0 then .error .divTrap else .ok (Int.tdiv l r)
  | .Exp => powi l r
  | .Fact => .error .invalidInfixOperator

/-! ## Tokens (src/pratt.cpp, Token) -/

/-- Embeds `Token`.  The `none` constructor is `Token::Kind::None` (the
default token, also what `Parser::peek` returns past the end), carrying the
byte payload the C++ union holds. -/
inductive Token where
  | none (byte : Nat)
  | int (v : Int)
  | op (k : OpKind)
  | lparen
  | rparen
deriving DecidableEq

/-- Lex errors: the offending byte and its byte offset, as carried by the
`Unexpected token ... at byte ...` exception of `Tokenizer::next`. -/
structure LexErr where
  byte : Nat
  offset : Nat
deriving DecidableEq

/-! ## Tokenizer (src/pratt.cpp, Tokenizer) -/

/-- Embeds `Tokenizer::peek` (with `n = 0`): the byte at the index, or the
NUL byte `0` past the end of the stream. -/
def peekB : List Nat → Nat → Nat
  | [], _ => 0
  | c :: _, 0 => c
  | _ :: s, i + 1 => peekB s i

/-- The whitespace-skipping loop at the top of `Tokenizer::next`:
`while (is_space(peek())) index++`.  Returns the new index. -/
def skipWsF : Nat → List Nat → Nat → Nat
  | 0, _, i => i
  | fuel + 1, s, i => if is_space (peekB s i) then skipWsF fuel s (i + 1) else i

/-- Whitespace skipping with enough fuel for any start index: the loop runs
at most `s.length - i` times before `peekB` returns 0, which is not a
space. -/
def skipWs (s : List Nat) (i : Nat) : Nat := skipWsF (s.length + 1) s i

/-- Embeds the loop of `Tokenizer::read_number`: consume digits and
underscores, accumulate `acc = 10*acc + (c - '0')` on digits, skip
underscores.  Returns the value and the index one past the run. -/
def read_numberF : Nat → List Nat → Int → Nat → Int × Nat
  | 0, _, acc, i => (acc, i)
  | fuel + 1, s, acc, i =>
    let c := peekB s i
    if is_digit c then read_numberF fuel s (10 * acc + ((c : Int) - 48)) (i + 1)
    else if c == 95 then read_numberF fuel s acc (i + 1)
    else (acc, i)

/-- Embeds `Tokenizer::read_number` started at index `i` with accumulator
`acc` (the C++ member function starts with `acc = 0` at the current index);
fuel `s.length + 1` always exceeds the run length. -/
def read_number (s : List Nat) (acc : Int) (i : Nat) : Int × Nat :=
  read_numberF (s.length + 1) s acc i

/-- Embeds `Tokenizer::next`: skip whitespace, then dispatch on the byte:
parens, the six operator symbols, digits (via `read_number`), otherwise the
`Unexpected token` error carrying the byte and its offset.  Returns the
token together with the index after it. -/
def nextTok (s : List Nat) (i : Nat) : Except LexErr (Token × Nat) :=
  let j := skipWs s i
  let c := peekB s j
  if c == 40 then .ok (.lparen, j + 1)
  else if c == 41 then .ok (.rparen, j + 1)
  else if c == 43 then .ok (.op .Add, j + 1)
  else if c == 45 then .ok (.op .Sub, j + 1)
  else if c == 42 then .ok (.op .Mul, j + 1)
  else if c == 47 then .ok (.op .Div, j + 1)
  else if c == 94 then .ok (.op .Exp, j + 1)
  else if c == 33 then .ok (.op .Fact, j + 1)
  else if is_digit c then
    let r := read_number s 0 j
    .ok (.int r.1, r.2)
  else .error ⟨c, j⟩

/-- Embeds the loop of `Tokenizer::tokenize`:
`while (index < stream.size()) tokens.emplace_back(next());`.
The fuel bounds the number of produced tokens; the sentinel error on fuel
exhaustion is unreachable with the fuel supplied by `tokenize`, because
every successful `nextTok` advances the index by at least one. -/
def tokenizeF : Nat → List Nat → Nat → Except LexErr (List Token)
  | 0, _, _ => .error ⟨256, 256⟩
  | fuel + 1, s, i =>
    if i < s.length then
      match nextTok s i with
      | .error e => .error e
      | .ok (t, j) =>
        match tokenizeF fuel s j with
        | .error e => .error e
        | .ok ts => .ok (t :: ts)
    else .ok []

/-- Embeds `Tokenizer::tokenize` on a whole byte stream. -/
def tokenize (s : List Nat) : Except LexErr (List Token) :=
  tokenizeF (s.length + 1) s 0

/-! ## AST (src/pratt.cpp, Expr) -/

/-- Embeds `Expr`: the `None` kind (default-constructed node, never built by
the parser), integer literals, unary nodes and binary nodes. -/
inductive Expr where
  | none
  | literal (v : Int)
  | unary (k : OpKind) (e : Expr)
  | binary (k : OpKind) (l r : Expr)
deriving DecidableEq

/-- Embeds `Expr::eval`.  The C++ evaluates both operand subtrees before
dispatching to `Op::eval`; the first exception aborts the walk, and the
embedding fixes the left-to-right order. -/
def Expr.eval : Expr → Except EvalErr Int
  | .none => .error .evalNone
  | .literal v => .ok v
  | .unary k e =>
    match e.eval with
    | .error err => .error err
    | .ok x => opEvalUnary k x
  | .binary k l r =>
    match l.eval with
    | .error err => .error err
    | .ok x =>
      match r.eval with
      | .error err => .error err
      | .ok y => opEvalBinary k x y

/-- Big-endian decimal digit bytes of a natural number, as produced by
`std::format` for a nonnegative integer.  Fuel bounds the recursion depth
on `n / 10`. -/
def natDigitsF : Nat → Nat → List Nat
  | 0, _ => []
  | fuel + 1, n =>
    if n < 10 then [n + 48] else natDigitsF fuel (n / 10) ++ [n % 10 + 48]

/-- Decimal digit bytes of `n`; fuel `n + 1` always exceeds the number of
digits. -/
def natDigits (n : Nat) : List Nat := natDigitsF (n + 1) n

/-- Decimal rendering of an `i64` by `std::format`: optional minus sign,
then digits. -/
def intBytes (v : Int) : List Nat :=
  if v < 0 then 45 :: natDigits (-v).toNat else natDigits v.toNat

/-- Embeds `Expr::str`, the fully-parenthesized prefix rendering:
`<none>` for the None kind, the decimal value for a literal,
`(sym operand)` for unary nodes, `(sym left right)` for binary nodes. -/
def Expr.str : Expr → List Nat
  | .none => [60, 110, 111, 110, 101, 62]
  | .literal v => intBytes v
  | .unary k e => [40, symbolByte k, 32] ++ e.str ++ [41]
  | .binary k l r => [40, symbolByte k, 32] ++ l.str ++ [32] ++ r.str ++ [41]

/-! ## Parser (src/pratt.cpp, Parser::parse_expr) -/

/-- Parse errors, one constructor per throw site of `Parser::parse_expr`
(`fuelExhausted` is the modelling artifact for insufficient fuel and is
unreachable with the fuel supplied by `parseToks`):
`expectedRParen` is the `Expected ')'` throw, `invalidPrefixOperator` the
`Invalid unary operator` throw, `unexpectedToken` the `Unexpected token`
throw, `unbalancedBrackets` the `Unbalanced brackets!` throw and
`expectedOperator` the `Expected operator` throw.  In the specification's
taxonomy `expectedRParen` and `unbalancedBrackets` are the two faces of
`UnbalancedParenError`. -/
inductive ParseErr where
  | expectedRParen
  | invalidPrefixOperator
  | unexpectedToken
  | unbalancedBrackets
  | expectedOperator
  | fuelExhausted
deriving DecidableEq

/-- Embeds `Parser::peek`: the token at the cursor, or a `Kind::None` token
past the end of the token vector. -/
def peekT (toks : List Token) (i : Nat) : Token := toks.getD i (.none 0)

/-- The two phases of `Parser::parse_expr`: parsing the left-hand seed
(function entry), or running the binary-operator loop with the current
left-hand expression. -/
inductive PMode where
  | seed
  | loop (lhs : Expr)
deriving DecidableEq

/-- Embeds `Parser::parse_expr(u8 min_bp = 0, u8 bracket_depth = 0)` as a
single fuel-indexed recursion; `PMode.seed` is the entry of the C++
function and `PMode.loop lhs` is its `while (true)` operator loop.  The
integer arguments are the token cursor, `min_bp`, and `bracket_depth`.
Note that the recursive calls for a prefix operand and for an infix
right-hand side pass bracket depth 0: the C++ calls `parse_expr(bp)` and
`parse_expr(r_bp)`, so `bracket_depth` falls back to its default value 0
there; only the parenthesis seed passes `bracket_depth + 1`. -/
def parseGo : Nat → List Token → PMode → Nat → Nat → Nat → Except ParseErr (Expr × Nat)
  | 0, _, _, _, _, _ => .error .fuelExhausted
  | fuel + 1, toks, .seed, i, min_bp, depth =>
    match peekT toks i with
    | .int v => parseGo fuel toks (.loop (.literal v)) (i + 1) min_bp depth
    | .lparen =>
      match parseGo fuel toks .seed (i + 1) 0 (depth + 1) with
      | .error e => .error e
      | .ok (lhs, j) =>
        match peekT toks j with
        | .rparen => parseGo fuel toks (.loop lhs) (j + 1) min_bp depth
        | _ => .error .expectedRParen
    | .op k =>
      match prefix_binding_power k with
      | none => .error .invalidPrefixOperator
      | some bp =>
        match parseGo fuel toks .seed (i + 1) bp.2 0 with
        | .error e => .error e
        | .ok (rhs, j) => parseGo fuel toks (.loop (.unary k rhs)) j min_bp depth
    | _ => .error .unexpectedToken
  | fuel + 1, toks, .loop lhs, i, min_bp, depth =>
    match peekT toks i with
    | .none _ => .ok (lhs, i)
    | .rparen => if depth = 0 then .error .unbalancedBrackets else .ok (lhs, i)
    | .int _ => .error .expectedOperator
    | .lparen => .error .expectedOperator
    | .op k =>
      match postfix_binding_power k, infix_binding_power k with
      | some pb, some ib =>
        if pb.1 < min_bp then .ok (lhs, i)
        else if ib.1 < min_bp then .ok (.unary k lhs, i + 1)
        else
          match parseGo fuel toks .seed (i + 2) ib.2 0 with
          | .error e => .error e
          | .ok (rhs, j) =>
            parseGo fuel toks (.loop (.binary k (.unary k lhs) rhs)) j min_bp depth
      | some pb, none =>
        if pb.1 < min_bp then .ok (lhs, i)
        else parseGo fuel toks (.loop (.unary k lhs)) (i + 1) min_bp depth
      | none, some ib =>
        if ib.1 < min_bp then .ok (lhs, i)
        else
          match parseGo fuel toks .seed (i + 1) ib.2 0 with
          | .error e => .error e
          | .ok (rhs, j) => parseGo fuel toks (.loop (.binary k lhs rhs)) j min_bp depth
      | none, none => parseGo fuel toks (.loop lhs) i min_bp depth

/-- Embeds the top-level `p.parse_expr()` call of `main`: parse a whole
token vector starting at cursor 0 with `min_bp = 0` and depth 0.  The fuel
`3 * length + 3` exceeds the total number of seed entries and loop
iterations, each of which either consumes a token or terminates. -/
def parseToks (toks : List Token) : Except ParseErr Expr :=
  match parseGo (3 * toks.length + 3) toks .seed 0 0 0 with
  | .error e => .error e
  | .ok r => .ok r.1

/-- Errors of the whole pipeline, tagged by stage. -/
inductive PipeErr where
  | lex (e : LexErr)
  | parse (e : ParseErr)
  | eval (e : EvalErr)
deriving DecidableEq

/-- Tokenize then parse, as `main` does. -/
def parseBytes (s : List Nat) : Except PipeErr Expr :=
  match tokenize s with
  | .error e => .error (.lex e)
  | .ok ts =>
    match parseToks ts with
    | .error e => .error (.parse e)
    | .ok e => .ok e

/-- The whole pipeline of `main`: tokenize, parse, evaluate. -/
def run (s : List Nat) : Except PipeErr Int :=
  match parseBytes s with
  | .error e => .error e
  | .ok e =>
    match e.eval with
    | .error err => .error (.eval err)
    | .ok v => .ok v

/-! ## Helper lemmas about the byte stream primitives -/

theorem peekB_eq_zero_of_le (s : List Nat) : ∀ i, s.length ≤ i → peekB s i = 0 := by
  induction s with
  | nil => intro i _; cases i <;> rfl
  | cons c t ih =>
    intro i h
    cases i with
    | zero => simp at h
    | succ j => exact ih j (by simpa using h)

theorem lt_length_of_peekB_ne_zero {s : List Nat} {i : Nat} (h : peekB s i ≠ 0) :
    i < s.length := by
  by_contra h2
  exact h (peekB_eq_zero_of_le s i (by omega))

theorem peekB_mem (s : List Nat) : ∀ i, i < s.length → peekB s i ∈ s := by
  induction s with
  | nil => intro i h; simp at h
  | cons c t ih =>
    intro i h
    cases i with
    | zero => exact List.mem_cons_self c t
    | succ j => exact List.mem_cons_of_mem c (ih j (by simpa using h))

theorem drop_eq_peekB_cons (s : List Nat) :
    ∀ i, i < s.length → s.drop i = peekB s i :: s.drop (i + 1) := by
  induction s with
  | nil => intro i h; simp at h
  | cons c t ih =>
    intro i h
    cases i with
    | zero => rfl
    | succ j => simpa [peekB] using ih j (by simpa using h)

theorem getLast?_eq_peekB (s : List Nat) :
    s ≠ [] → s.getLast? = some (peekB s (s.length - 1)) := by
  induction s with
  | nil => intro h; exact absurd rfl h
  | cons c t ih =>
    intro _
    cases t with
    | nil => rfl
    | cons d u =>
      rw [List.getLast?_cons_cons, ih (by simp)]
      rfl

theorem is_space_values {c : Nat} (h : is_space c = true) :
    c = 32 ∨ c = 10 ∨ c = 13 ∨ c = 9 := by
  simp [is_space] at h
  tauto

theorem is_digit_values {c : Nat} (h : is_digit c = true) : 48 ≤ c ∧ c ≤ 57 := by
  simpa [is_digit] using h

theorem is_space_of_digit_false {c : Nat} (h : is_digit c = true) : is_space c = false := by
  obtain ⟨h1, h2⟩ := is_digit_values h
  simp [is_space]
  omega

/-! ## Helper lemmas about whitespace skipping -/

theorem skipWsF_ge (s : List Nat) : ∀ fuel i, i ≤ skipWsF fuel s i := by
  intro fuel
  induction fuel with
  | zero => intro i; exact le_refl i
  | succ fuel ih =>
    intro i
    rw [skipWsF]
    split
    · exact le_trans (Nat.le_succ i) (ih (i + 1))
    · exact le_refl i

theorem skipWsF_le (s : List Nat) :
    ∀ fuel i, i ≤ s.length → skipWsF fuel s i ≤ s.length := by
  intro fuel
  induction fuel with
  | zero => intro i h; exact h
  | succ fuel ih =>
    intro i h
    rw [skipWsF]
    split
    · rename_i hsp
      have hne : peekB s i ≠ 0 := by
        rcases is_space_values hsp with h1 | h1 | h1 | h1 <;> omega
      exact ih (i + 1) (lt_length_of_peekB_ne_zero hne)
    · exact h

theorem skipWsF_stop (s : List Nat) :
    ∀ fuel i, s.length - i < fuel → is_space (peekB s (skipWsF fuel s i)) = false := by
  intro fuel
  induction fuel with
  | zero => intro i h; omega
  | succ fuel ih =>
    intro i h
    rw [skipWsF]
    split
    · rename_i hsp
      have hne : peekB s i ≠ 0 := by
        rcases is_space_values hsp with h1 | h1 | h1 | h1 <;> omega
      have hlt := lt_length_of_peekB_ne_zero hne
      exact ih (i + 1) (by omega)
    · rename_i hsp
      exact eq_false_of_ne_true hsp

theorem skipWsF_mem (s : List Nat) :
    ∀ fuel i k, i ≤ k → k < skipWsF fuel s i → is_space (peekB s k) = true := by
  intro fuel
  induction fuel with
  | zero =>
    intro i k h1 h2
    rw [skipWsF] at h2
    omega
  | succ fuel ih =>
    intro i k h1 h2
    rw [skipWsF] at h2
    by_cases hsp : is_space (peekB s i) = true
    · rw [if_pos hsp] at h2
      rcases Nat.eq_or_lt_of_le h1 with rfl | hlt
      · exact hsp
      · exact ih (i + 1) k hlt h2
    · rw [if_neg hsp] at h2
      omega

theorem skipWs_ge (s : List Nat) (i : Nat) : i ≤ skipWs s i := skipWsF_ge s _ i

theorem skipWs_le (s : List Nat) (i : Nat) (h : i ≤ s.length) : skipWs s i ≤ s.length :=
  skipWsF_le s _ i h

theorem skipWs_stop (s : List Nat) (i : Nat) : is_space (peekB s (skipWs s i)) = false :=
  skipWsF_stop s _ i (by omega)

theorem skipWs_mem (s : List Nat) (i k : Nat) (h1 : i ≤ k) (h2 : k < skipWs s i) :
    is_space (peekB s k) = true := skipWsF_mem s _ i k h1 h2

/-! ## Helper lemmas about number reading -/

/-- The accumulation function of `read_number` applied along a byte run:
underscores are skipped, digits accumulate `value = 10*value + digit`. -/
def digitFold (acc : Int) (ds : List Nat) : Int :=
  ds.foldl (fun (a : Int) (c : Nat) => if c == 95 then a else 10 * a + ((c : Int) - 48)) acc

theorem takeWhile_eq_self_of_all {p : Nat → Bool} :
    ∀ l : List Nat, (∀ c ∈ l, p c = true) → l.takeWhile p = l := by
  intro l
  induction l with
  | nil => intro _; rfl
  | cons c t ih =>
    intro h
    rw [List.takeWhile_cons, if_pos (h c (List.mem_cons_self c t))]
    rw [ih fun d hd => h d (List.mem_cons_of_mem c hd)]

theorem read_numberF_spec (s : List Nat) :
    ∀ fuel acc i, s.length - i < fuel →
      read_numberF fuel s acc i =
        (digitFold acc ((s.drop i).takeWhile isNumByte),
         i + ((s.drop i).takeWhile isNumByte).length) := by
  intro fuel
  induction fuel with
  | zero => intro acc i h; omega
  | succ fuel ih =>
    intro acc i h
    rw [read_numberF]
    by_cases hi : i < s.length
    · rw [drop_eq_peekB_cons s i hi, List.takeWhile_cons]
      by_cases hd : is_digit (peekB s i) = true
      · have hnum : isNumByte (peekB s i) = true := by simp [isNumByte, hd]
        have hne95 : peekB s i ≠ 95 := by
          obtain ⟨h1, h2⟩ := is_digit_values hd
          omega
        rw [if_pos hd, if_pos hnum, ih _ (i + 1) (by omega)]
        simp [digitFold, hne95]
        omega
      · by_cases hu : (peekB s i == 95) = true
        · have hnum : isNumByte (peekB s i) = true := by simp [isNumByte, hu]
          have hup : peekB s i = 95 := by simpa using hu
          rw [if_neg hd, if_pos hu, if_pos hnum, ih _ (i + 1) (by omega)]
          simp [digitFold, hup]
          omega
        · have hnum : isNumByte (peekB s i) = false := by
            simp [isNumByte] at hd hu ⊢
            exact ⟨hd, hu⟩
          rw [if_neg hd, if_neg (by simp [hu]), if_neg (by simp [hnum])]
          simp [digitFold]
    · have hz : peekB s i = 0 := peekB_eq_zero_of_le s i (by omega)
      have hdrop : s.drop i = [] := List.drop_eq_nil_of_le (by omega)
      rw [hz, hdrop]
      simp [digitFold, is_digit]

theorem read_number_spec (s : List Nat) (acc : Int) (i : Nat) :
    read_number s acc i =
      (digitFold acc ((s.drop i).takeWhile isNumByte),
       i + ((s.drop i).takeWhile isNumByte).length) :=
  read_numberF_spec s _ acc i (by omega)

theorem read_number_le (s : List Nat) (acc : Int) (i : Nat) (h : i ≤ s.length) :
    (read_number s acc i).2 ≤ s.length := by
  rw [read_number_spec]
  have h1 : ((s.drop i).takeWhile isNumByte).length ≤ (s.drop i).length :=
    List.Sublist.length_le (List.takeWhile_sublist _)
  have h2 : (s.drop i).length = s.length - i := List.length_drop i s
  simp only
  omega

theorem read_number_advance (s : List Nat) (acc : Int) (i : Nat)
    (h : is_digit (peekB s i) = true) : i + 1 ≤ (read_number s acc i).2 := by
  have hne : peekB s i ≠ 0 := by
    obtain ⟨h1, _⟩ := is_digit_values h
    omega
  have hi := lt_length_of_peekB_ne_zero hne
  rw [read_number_spec]
  rw [drop_eq_peekB_cons s i hi, List.takeWhile_cons, if_pos (by simp [isNumByte, h])]
  simp only [List.length_cons]
  omega

/-! ## Helper lemmas about nextTok -/

theorem nextTok_error_char (s : List Nat) (i b o : Nat) (hi : i ≤ s.length)
    (h : nextTok s i = .error ⟨b, o⟩) :
    (o < s.length ∧ peekB s o = b ∧ is_space b = false ∧ isStartByte b = false)
    ∨ (o = s.length ∧ b = 0) := by
  have hws := skipWs_stop s i
  have hle := skipWs_le s i hi
  simp only [nextTok] at h
  split_ifs at h with h1 h2 h3 h4 h5 h6 h7 h8 h9 <;> simp at h
  obtain ⟨hb, ho⟩ := h
  simp at h1 h2 h3 h4 h5 h6 h7 h8
  simp [is_digit] at h9
  by_cases hj : skipWs s i < s.length
  · left
    refine ⟨by omega, by rw [← ho, ← hb], by rw [← hb]; exact hws, ?_⟩
    rw [← hb]
    simp [isStartByte, isOpByte, isParenByte, is_digit]
    omega
  · right
    have hjeq : skipWs s i = s.length := by omega
    have hz : peekB s (skipWs s i) = 0 := peekB_eq_zero_of_le s _ (by omega)
    omega

theorem nextTok_ok_bounds (s : List Nat) (i : Nat) (t : Token) (j : Nat)
    (hi : i ≤ s.length) (h : nextTok s i = .ok (t, j)) : i < j ∧ j ≤ s.length := by
  have hge := skipWs_ge s i
  have hle := skipWs_le s i hi
  simp only [nextTok] at h
  split_ifs at h with h1 h2 h3 h4 h5 h6 h7 h8 h9 <;> simp at h
  · obtain ⟨-, hj⟩ := h
    simp at h1
    have hlt := lt_length_of_peekB_ne_zero (show peekB s (skipWs s i) ≠ 0 by omega)
    omega
  · obtain ⟨-, hj⟩ := h
    simp at h2
    have hlt := lt_length_of_peekB_ne_zero (show peekB s (skipWs s i) ≠ 0 by omega)
    omega
  · obtain ⟨-, hj⟩ := h
    simp at h3
    have hlt := lt_length_of_peekB_ne_zero (show peekB s (skipWs s i) ≠ 0 by omega)
    omega
  · obtain ⟨-, hj⟩ := h
    simp at h4
    have hlt := lt_length_of_peekB_ne_zero (show peekB s (skipWs s i) ≠ 0 by omega)
    omega
  · obtain ⟨-, hj⟩ := h
    simp at h5
    have hlt := lt_length_of_peekB_ne_zero (show peekB s (skipWs s i) ≠ 0 by omega)
    omega
  · obtain ⟨-, hj⟩ := h
    simp at h6
    have hlt := lt_length_of_peekB_ne_zero (show peekB s (skipWs s i) ≠ 0 by omega)
    omega
  · obtain ⟨-, hj⟩ := h
    simp at h7
    have hlt := lt_length_of_peekB_ne_zero (show peekB s (skipWs s i) ≠ 0 by omega)
    omega
  · obtain ⟨-, hj⟩ := h
    simp at h8
    have hlt := lt_length_of_peekB_ne_zero (show peekB s (skipWs s i) ≠ 0 by omega)
    omega
  · obtain ⟨-, hj⟩ := h
    have hadv := read_number_advance s 0 (skipWs s i) h9
    have hre := read_number_le s 0 (skipWs s i) hle
    omega

theorem nextTok_ok_of_start (s : List Nat) (i : Nat)
    (h : isStartByte (peekB s (skipWs s i)) = true) :
    ∃ t j, nextTok s i = .ok (t, j) := by
  simp only [nextTok]
  split_ifs with h1 h2 h3 h4 h5 h6 h7 h8 h9
  all_goals try exact ⟨_, _, rfl⟩
  exfalso
  simp at h1 h2 h3 h4 h5 h6 h7 h8
  simp [isStartByte, isOpByte, isParenByte, is_digit] at h h9
  omega

theorem nextTok_digit (s : List Nat) (i : Nat)
    (h : is_digit (peekB s (skipWs s i)) = true) :
    nextTok s i =
      .ok (.int (read_number s 0 (skipWs s i)).1, (read_number s 0 (skipWs s i)).2) := by
  obtain ⟨hv1, hv2⟩ := is_digit_values h
  simp only [nextTok]
  rw [if_neg (by simp; omega), if_neg (by simp; omega), if_neg (by simp; omega),
    if_neg (by simp; omega), if_neg (by simp; omega), if_neg (by simp; omega),
    if_neg (by simp; omega), if_neg (by simp; omega), if_pos h]

/-! ## Helper lemmas about tokenize -/

theorem tokenizeF_error_char (s : List Nat) :
    ∀ fuel i b o, i ≤ s.length → s.length - i < fuel →
      tokenizeF fuel s i = .error ⟨b, o⟩ →
      (o < s.length ∧ peekB s o = b ∧ is_space b = false ∧ isStartByte b = false)
      ∨ (o = s.length ∧ b = 0) := by
  intro fuel
  induction fuel with
  | zero => intro i b o h1 h2 h3; omega
  | succ fuel ih =>
    intro i b o hi hf h
    rw [tokenizeF] at h
    by_cases hlt : i < s.length
    · rw [if_pos hlt] at h
      cases hnext : nextTok s i with
      | error e =>
        rw [hnext] at h
        obtain ⟨eb, eo⟩ := e
        have heq : eb = b ∧ eo = o := by simpa using h
        obtain ⟨rfl, rfl⟩ := heq
        exact nextTok_error_char s i eb eo hi hnext
      | ok tj =>
        obtain ⟨t, j⟩ := tj
        rw [hnext] at h
        dsimp only at h
        obtain ⟨hij, hjle⟩ := nextTok_ok_bounds s i t j hi hnext
        cases hrec : tokenizeF fuel s j with
        | error e2 =>
          rw [hrec] at h
          obtain ⟨eb, eo⟩ := e2
          have heq : eb = b ∧ eo = o := by simpa using h
          obtain ⟨rfl, rfl⟩ := heq
          exact ih j eb eo hjle (by omega) hrec
        | ok ts =>
          rw [hrec] at h
          simp at h
    · rw [if_neg hlt] at h
      simp at h

theorem tokenizeF_success (s : List Nat)
    (hset : ∀ c ∈ s, is_space c = true ∨ isStartByte c = true)
    (hlast : ∀ c, s.getLast? = some c → is_space c = false) :
    ∀ fuel i, i ≤ s.length → s.length - i < fuel →
      ∃ ts, tokenizeF fuel s i = .ok ts := by
  intro fuel
  induction fuel with
  | zero => intro i h1 h2; omega
  | succ fuel ih =>
    intro i hi hf
    by_cases hlt : i < s.length
    · have hjle := skipWs_le s i hi
      have hjge := skipWs_ge s i
      have hjlt : skipWs s i < s.length := by
        rcases Nat.lt_or_ge (skipWs s i) s.length with hcase | hcase
        · exact hcase
        · exfalso
          have hsne : s ≠ [] := by
            intro he
            rw [he] at hlt
            simp at hlt
          have hlws : is_space (peekB s (s.length - 1)) = true :=
            skipWs_mem s i (s.length - 1) (by omega) (by omega)
          have hnws := hlast (peekB s (s.length - 1)) (getLast?_eq_peekB s hsne)
          rw [hnws] at hlws
          exact Bool.false_ne_true hlws
      have hstart : isStartByte (peekB s (skipWs s i)) = true := by
        rcases hset _ (peekB_mem s _ hjlt) with hsp | hst
        · rw [skipWs_stop s i] at hsp
          simp at hsp
        · exact hst
      obtain ⟨t, j, hnext⟩ := nextTok_ok_of_start s i hstart
      obtain ⟨hij, hjle2⟩ := nextTok_ok_bounds s i t j hi hnext
      obtain ⟨ts, hts⟩ := ih j hjle2 (by omega)
      refine ⟨t :: ts, ?_⟩
      rw [tokenizeF, if_pos hlt, hnext]
      dsimp only
      rw [hts]
    · exact ⟨[], by rw [tokenizeF, if_neg hlt]⟩

/-! ## Correctness of the repeated-squaring power -/

theorem powuLoopF_spec (x : Int) (p : Nat) :
    ∀ fuel pc, 0 < pc → pc < p → p ≤ 2 ^ fuel * pc →
      (powuLoopF fuel x p (x ^ pc) pc).1 = x ^ (powuLoopF fuel x p (x ^ pc) pc).2 ∧
      p ≤ 2 * (powuLoopF fuel x p (x ^ pc) pc).2 ∧
      0 < (powuLoopF fuel x p (x ^ pc) pc).2 ∧
      (powuLoopF fuel x p (x ^ pc) pc).2 < p := by
  intro fuel
  induction fuel with
  | zero =>
    intro pc h1 h2 h3
    rw [pow_zero, one_mul] at h3
    rw [powuLoopF]
    exact ⟨rfl, by omega, h1, h2⟩
  | succ fuel ih =>
    intro pc h1 h2 h3
    rw [powuLoopF]
    by_cases hlt : 2 * pc < p
    · rw [if_pos hlt]
      have hres : x ^ pc * x ^ pc = x ^ (2 * pc) := by rw [two_mul, pow_add]
      rw [hres]
      refine ih (2 * pc) (by omega) hlt ?_
      refine le_trans h3 (le_of_eq ?_)
      ring
    · rw [if_neg hlt]
      exact ⟨rfl, by omega, h1, h2⟩

theorem powuF_correct : ∀ fuel (x : Int) (p : Nat), p < fuel → powuF fuel x p = x ^ p := by
  intro fuel
  induction fuel with
  | zero => intro x p h; omega
  | succ fuel ih =>
    intro x p h
    simp only [powuF]
    split_ifs with h0 h1 h2 h3 h4
    · simp [h0]
    · simp [h1]
    · rw [h2, pow_two]
    · rw [h3]
      ring
    · rw [h4]
      ring
    · have h5 : 5 ≤ p := by omega
      have hple : p ≤ 2 ^ p * 1 := by
        rw [mul_one]
        exact Nat.le_of_lt (Nat.lt_two_pow p)
      have spec := powuLoopF_spec x p p 1 one_pos (by omega) hple
      rw [pow_one] at spec
      obtain ⟨e1, e2, e3, e4⟩ := spec
      rw [ih x (p - (powuLoopF p x p x 1).2) (by omega), e1, ← pow_add]
      congr 1
      omega

theorem powu_spec (x : Int) (p : Nat) : powu x p = x ^ p :=
  powuF_correct (p + 1) x p (by omega)

theorem powi_spec (x p : Int) :
    powi x p = if p < 0 then .error .negativePower else .ok (x ^ p.toNat) := by
  unfold powi
  split_ifs with h
  · rfl
  · rw [powu_spec]

/-! ## Decimal digits round trip -/

theorem natDigitsF_ne_nil (fuel n : Nat) (h : 0 < fuel) : natDigitsF fuel n ≠ [] := by
  cases fuel with
  | zero => omega
  | succ fuel =>
    rw [natDigitsF]
    split
    · simp
    · simp

theorem natDigitsF_digits : ∀ fuel n c, c ∈ natDigitsF fuel n → is_digit c = true := by
  intro fuel
  induction fuel with
  | zero =>
    intro n c h
    rw [natDigitsF] at h
    simp at h
  | succ fuel ih =>
    intro n c h
    rw [natDigitsF] at h
    by_cases hn : n < 10
    · rw [if_pos hn] at h
      simp at h
      subst h
      simp [is_digit]
      omega
    · rw [if_neg hn] at h
      rcases List.mem_append.1 h with h2 | h2
      · exact ih _ _ h2
      · simp at h2
        subst h2
        simp [is_digit]
        omega

theorem digitFold_natDigitsF :
    ∀ fuel n (a : Int), n < fuel →
      digitFold a (natDigitsF fuel n) = a * 10 ^ (natDigitsF fuel n).length + n := by
  intro fuel
  induction fuel with
  | zero => intro n a h; omega
  | succ fuel ih =>
    intro n a h
    rw [natDigitsF]
    by_cases hn : n < 10
    · rw [if_pos hn]
      have h95 : n + 48 ≠ 95 := by omega
      simp [digitFold, h95]
      push_cast
      ring
    · rw [if_neg hn]
      have hd : n / 10 < fuel := by omega
      have key := ih (n / 10) a hd
      simp only [digitFold] at key ⊢
      rw [List.foldl_append, key, List.foldl_cons, List.foldl_nil]
      have h95 : n % 10 + 48 ≠ 95 := by omega
      rw [if_neg (by simpa using h95)]
      rw [List.length_append, List.length_cons, List.length_nil]
      have hc : ((n % 10 + 48 : Nat) : Int) = ((n % 10 : Nat) : Int) + 48 := by push_cast; ring
      rw [hc]
      have hdm : ((n / 10 : Nat) : Int) * 10 + ((n % 10 : Nat) : Int) = (n : Int) := by omega
      linear_combination hdm

theorem tokenize_natDigits (n : Nat) : tokenize (natDigits n) = .ok [.int n] := by
  have hne : natDigits n ≠ [] := natDigitsF_ne_nil (n + 1) n (by omega)
  have hlen : 0 < (natDigits n).length := List.length_pos.2 hne
  have hall : ∀ c ∈ natDigits n, is_digit c = true := fun c hc =>
    natDigitsF_digits (n + 1) n c hc
  have h0 : is_digit (peekB (natDigits n) 0) = true := hall _ (peekB_mem _ 0 hlen)
  have hskip : skipWs (natDigits n) 0 = 0 := by
    rw [skipWs, skipWsF, if_neg (by simp [is_space_of_digit_false h0])]
  have hread : read_number (natDigits n) 0 0 = ((n : Int), (natDigits n).length) := by
    rw [read_number_spec, List.drop_zero,
      takeWhile_eq_self_of_all _ (fun c hc => by simp [isNumByte, hall c hc])]
    rw [natDigits, digitFold_natDigitsF (n + 1) n 0 (by omega)]
    simp
  have hnext : nextTok (natDigits n) 0 = .ok (.int (n : Int), (natDigits n).length) := by
    rw [nextTok_digit _ 0 (by rw [hskip]; exact h0), hskip, hread]
  rw [tokenize, tokenizeF, if_pos hlen, hnext]
  dsimp only
  obtain ⟨l, hl⟩ : ∃ l, (natDigits n).length = l + 1 := ⟨(natDigits n).length - 1, by omega⟩
  rw [hl, tokenizeF, if_neg (by omega)]

theorem parseToks_single (v : Int) : parseToks [.int v] = .ok (.literal v) := rfl

/-! ## The claims -/

/-- C1: the claim states that evaluating a factorial fails with
`FactorialOverflowError` exactly for arguments greater than 20 and that
`parse("21!")` so fails, and that `parse("(-1)!")` fails with
`NegativeFactorialError`.  The code's guard is `x > 21`, so evaluating
`21!` succeeds and yields 21! = 51090942171709440000, which exceeds the
i64 maximum 9223372036854775807 — a signed overflow in the C++ program,
contradicting the code's own `will overflow!` message; and `(-1)!` fails
during parsing with the unbalanced-bracket error (the parenthesised
sub-expression hits the bracket-depth bug) before the evaluator ever runs.
The in-range behaviour (`5!` = 120) and the guards at 22 and at negative
arguments hold as claimed. -/
theorem C1_factorial_overflow_bound_bug :
    run [50, 49, 33] = .ok 51090942171709440000
    ∧ (9223372036854775807 : Int) < 51090942171709440000
    ∧ factorial 21 = .ok 51090942171709440000
    ∧ factorial 22 = .error .factorialOverflow
    ∧ factorial (-1) = .error .negativeFactorial
    ∧ run [53, 33] = .ok 120
    ∧ run [40, 45, 49, 41, 33] = .error (.parse .unbalancedBrackets) :=
  ⟨by decide, by decide, by decide, by decide, by decide, by decide, by decide⟩

/-- C2 counterexample: the claim states that evaluating `4/0` fails with a
checked `DivisionByZeroError`; the code has no zero-divisor check at all —
`left / right` is evaluated unconditionally, and with a zero divisor the
C++ program traps (undefined behaviour / SIGFPE), modelled by the
distinguished `divTrap`, which is not a catchable error value of the
program. -/
theorem C2_div_by_zero_counterexample :
    run [52, 47, 48] = .error (.eval .divTrap) := by decide

/-- C2 amended: evaluating a Binary Div node performs native truncating
integer division with no zero-divisor check; a zero divisor reaches the
hardware trap (undefined behaviour) rather than a checked
`DivisionByZeroError`, and for nonzero divisors the truncated quotient of
the evaluated operands is returned; in particular `4/0` hits the trap. -/
theorem C2_div_semantics :
    (∀ l r : Int, Expr.eval (.binary .Div (.literal l) (.literal r)) =
      if r = 0 then .error .divTrap else .ok (Int.tdiv l r))
    ∧ run [52, 47, 48] = .error (.eval .divTrap) := by
  constructor
  · intro l r
    rfl
  · decide

/-- C3: the claim states that `2+3*4` evaluates to 14 (which holds) and
that `(2+3)*4` evaluates to 20.  The latter fails: `parse_expr`'s
recursive call for an infix right-hand side is `parse_expr(r_bp)`, which
resets `bracket_depth` to its default 0, so the closing parenthesis of
`(2+3)` is seen at depth 0 and the parse throws `Unbalanced brackets!`. -/
theorem C3_precedence_paren_bug :
    run [50, 43, 51, 42, 52] = .ok 14
    ∧ parseBytes [40, 50, 43, 51, 41, 42, 52] = .error (.parse .unbalancedBrackets)
    ∧ run [40, 50, 43, 51, 41, 42, 52] = .error (.parse .unbalancedBrackets) :=
  ⟨by decide, by decide, by decide⟩

/-- C4: infix operators with right binding power one greater than the left
one are left-associative: for all integer literals a, b, c the token
sequence of `a - b - c` parses to Binary(Sub, Binary(Sub, a, b), c), and
`2*3+4` evaluates to 10 and `2-3-4` to -5. -/
theorem C4_left_associativity :
    (∀ a b c : Int,
      parseToks [.int a, .op .Sub, .int b, .op .Sub, .int c] =
        .ok (.binary .Sub (.binary .Sub (.literal a) (.literal b)) (.literal c)))
    ∧ run [50, 42, 51, 43, 52] = .ok 10
    ∧ run [50, 45, 51, 45, 52] = .ok (-5) := by
  refine ⟨fun a b c => rfl, by decide, by decide⟩

/-- C5: the claim states that parsing fails with `UnbalancedParenError`
exactly in the two mismatched-parenthesis cases.  The two positive cases
hold — `(2+3` throws `Expected ')'` and `2+3)` throws
`Unbalanced brackets!` — but the "exactly" fails: the balanced input
`(2+3)*4` also throws `Unbalanced brackets!`, because the recursive calls
for prefix operands and infix right-hand sides reset `bracket_depth` to
the default 0 instead of propagating it. -/
theorem C5_unbalanced_paren_bug :
    parseBytes [40, 50, 43, 51] = .error (.parse .expectedRParen)
    ∧ parseBytes [50, 43, 51, 41] = .error (.parse .unbalancedBrackets)
    ∧ parseBytes [40, 50, 43, 51, 41, 42, 52] = .error (.parse .unbalancedBrackets) :=
  ⟨by decide, by decide, by decide⟩

/-- C6 counterexample: the claim states that tokenization succeeds on any
input containing only digits, underscore, whitespace, operator symbols and
parentheses.  Both the single space (whitespace runs to end-of-input and
the NUL sentinel reaches the unclassifiable-byte branch, reported at
offset 1) and the single underscore (underscores are consumed only inside
a number run, not at a token start) are inputs over that set on which
tokenization throws a LexError. -/
theorem C6_lex_charset_counterexample :
    tokenize [32] = .error ⟨0, 1⟩
    ∧ tokenize [95] = .error ⟨95, 0⟩
    ∧ is_space 32 = true
    ∧ isNumByte 95 = true :=
  ⟨by decide, by decide, by decide, by decide⟩

/-- C6 amended: when tokenization fails with `LexError{byte, offset}`,
either the offset is in range, the byte is the stream byte at that offset,
and it is neither whitespace nor a byte a token can start with (digit,
operator symbol, parenthesis) — note a bare underscore is such a byte —
or the offset equals the input length and the byte is the NUL sentinel
(trailing whitespace ran to end-of-input).  Conversely tokenization
succeeds on any input all of whose bytes are whitespace or token-start
bytes, provided the input does not end with a whitespace byte. -/
theorem C6_lex_charset :
    (∀ s b o, tokenize s = .error ⟨b, o⟩ →
      (o < s.length ∧ peekB s o = b ∧ is_space b = false ∧ isStartByte b = false)
      ∨ (o = s.length ∧ b = 0))
    ∧ (∀ s : List Nat, (∀ c ∈ s, is_space c = true ∨ isStartByte c = true) →
        (∀ c, s.getLast? = some c → is_space c = false) →
        ∃ ts, tokenize s = .ok ts) := by
  constructor
  · intro s b o h
    exact tokenizeF_error_char s (s.length + 1) 0 b o (by omega) (by omega) h
  · intro s hset hlast
    exact tokenizeF_success s hset hlast (s.length + 1) 0 (by omega) (by omega)

/-- C6 witness: the success direction applied to the concrete input `1+2`
(hypotheses discharged by computation), and the error characterisation
applied to the concrete input `a`, whose LexError carries byte 97 at
offset 0. -/
theorem C6_lex_charset_witness :
    (∀ c ∈ ([49, 43, 50] : List Nat), is_space c = true ∨ isStartByte c = true)
    ∧ (∃ ts, tokenize [49, 43, 50] = .ok ts)
    ∧ ((0 < ([97] : List Nat).length ∧ peekB [97] 0 = 97 ∧ is_space 97 = false
        ∧ isStartByte 97 = false)
      ∨ (0 = ([97] : List Nat).length ∧ 97 = 0)) :=
  ⟨by decide, C6_lex_charset.2 [49, 43, 50] (by decide) (by decide),
    C6_lex_charset.1 [97] 97 0 (by decide)⟩

/-- C7: on a digit, the tokenizer produces one integer-literal token by
reading the maximal run of digits and underscores (characterised by
`takeWhile`), skipping underscores and accumulating
`value = 10*value + digit` (the `digitFold`); in particular `12+3`
tokenizes to [Int 12, Op Add, Int 3] and `1__2` to [Int 12]. -/
theorem C7_read_number_maximal_run :
    (∀ s i, is_digit (peekB s (skipWs s i)) = true →
      nextTok s i =
        .ok (.int (read_number s 0 (skipWs s i)).1, (read_number s 0 (skipWs s i)).2))
    ∧ (∀ s (acc : Int) i, read_number s acc i =
        (digitFold acc ((s.drop i).takeWhile isNumByte),
         i + ((s.drop i).takeWhile isNumByte).length))
    ∧ tokenize [49, 50, 43, 51] = .ok [.int 12, .op .Add, .int 3]
    ∧ tokenize [49, 95, 95, 50] = .ok [.int 12] :=
  ⟨nextTok_digit, read_number_spec, by decide, by decide⟩

/-- C7 witness: the digit-dispatch part applied at the concrete input
`12+3` at index 0, whose first byte is the digit 1. -/
theorem C7_read_number_maximal_run_witness :
    is_digit (peekB [49, 50, 43, 51] (skipWs [49, 50, 43, 51] 0)) = true
    ∧ nextTok [49, 50, 43, 51] 0 = .ok (.int 12, 2) := by
  refine ⟨by decide, ?_⟩
  rw [C7_read_number_maximal_run.1 [49, 50, 43, 51] 0 (by decide)]
  decide

/-- C8: the repeated-squaring implementation computes exactly the
mathematical power x^p for every base and every nonnegative exponent (in
the unbounded-integer model, which subsumes every 64-bit-representable
instance), `powi` fails with `NegativeExponentError` exactly for negative
exponents, and `2^-1` evaluates to that error. -/
theorem C8_power_repeated_squaring :
    (∀ (x : Int) (p : Nat), powu x p = x ^ p)
    ∧ (∀ x p : Int, powi x p =
        if p < 0 then .error .negativePower else .ok (x ^ p.toNat))
    ∧ run [50, 94, 45, 49] = .error (.eval .negativePower) :=
  ⟨powu_spec, powi_spec, by decide⟩

/-- C9 counterexample: the claim states that every AST produced by a
successful parse round-trips through `str` and re-parsing.  The input
`2+3` parses successfully to Binary(Add, 2, 3), whose rendering is the
prefix form `(+ 2 3)`; re-tokenizing and re-parsing that rendering fails
with the expected-operator error (the parser reads infix syntax, and after
the prefix `+` consumes the literal 2 it finds the literal 3 where an
operator is required), so no structurally identical AST is produced. -/
theorem C9_roundtrip_counterexample :
    parseBytes [50, 43, 51] = .ok (.binary .Add (.literal 2) (.literal 3))
    ∧ Expr.str (.binary .Add (.literal 2) (.literal 3)) = [40, 43, 32, 50, 32, 51, 41]
    ∧ parseBytes [40, 43, 32, 50, 32, 51, 41] = .error (.parse .expectedOperator) :=
  ⟨by decide, by decide, by decide⟩

/-- C9 amended: the round trip holds only for the ASTs that are a bare
(nonnegative) integer literal — rendering such an AST gives its decimal
digits, which re-tokenize to the single integer token and re-parse to the
identical literal node; for ASTs containing an operator node the re-parse
of the rendered prefix form fails (see the counterexample). -/
theorem C9_roundtrip_literal (n : Nat) :
    parseBytes (Expr.str (.literal (n : Int))) = .ok (.literal (n : Int)) := by
  have hstr : Expr.str (.literal (n : Int)) = natDigits n := by
    simp only [Expr.str, intBytes, if_neg (not_lt.mpr (Int.natCast_nonneg n)),
      Int.toNat_natCast]
  rw [hstr]
  simp only [parseBytes, tokenize_natDigits n, parseToks_single]

/-- C9 witness: the amended round trip at the concrete literal 42. -/
theorem C9_roundtrip_literal_witness :
    parseBytes (Expr.str (.literal (42 : Int))) = .ok (.literal (42 : Int)) :=
  C9_roundtrip_literal 42

/-- C10: because the prefix right binding power of `-` (5) is lower than
the infix left binding power of `^` (9), `-3^2` parses to
Unary(Sub, Binary(Exp, 3, 2)) and evaluates to -(3^2) = -9. -/
theorem C10_prefix_minus_vs_exp :
    parseBytes [45, 51, 94, 50] =
      .ok (.unary .Sub (.binary .Exp (.literal 3) (.literal 2)))
    ∧ run [45, 51, 94, 50] = .ok (-9) :=
  ⟨by decide, by decide⟩
